import Mathlib

/-!
# Verification of the FopDollarBot cost-basis ledger and rate services

Shallow embedding of the core services of the FopDollarBot repository:

* `UsdService` (src/services/UsdService.ts): the FIFO lot ledger —
  `addUsd`, `sellUsd`, `getBalance`, `getStatus`;
* `CurrencyService` (src/services/CurrencyService.ts): dual-provider
  exchange-rate lookup with a TTL cache — `getNbuRate` (primary /
  historical provider) and `getMonobankBuyRate` (secondary / live
  provider with fallback);
* `NotificationService` (src/services/NotificationService.ts):
  per-user notification state and throttling — `registerUser`,
  `checkUserPnL`.

Modelling conventions:

* JavaScript numbers are modelled as exact rationals `ℚ`; all the
  arithmetic the claims exercise (addition, subtraction, `min`,
  division, multiplication) is exact on the inputs involved.
* JavaScript `Date` values are modelled as integer milliseconds since
  the epoch (`Time := Int`), exactly the value of `Date.getTime()`.
* The MongoDB collections are modelled as in-memory lists carried in
  explicit state (`Ledger`, `RateEnv`); a Mongoose document's identity
  is modelled by an `id : Nat` field assigned at insertion, and
  `find(...).sort({date: 1})` is modelled as a filter followed by a
  stable sort (`List.mergeSort`) on the date key.
* `async`/`await` calls that can throw are modelled either by passing
  the awaited value as an argument (for the pure correctness claims)
  or by an explicit outcome schedule (`Fetch`, save-success flags) for
  the failure-atomicity claims.
-/

namespace FopDollarBot

/-- Milliseconds since the Unix epoch, as returned by `Date.getTime()`. -/
abbrev Time := Int

/-- Milliseconds in one calendar day. -/
def msPerDay : Int := 86400000

/-- Milliseconds in one hour. -/
def msPerHour : Int := 3600000

/-- `CurrencyService.getDateOnly`: `setHours(0,0,0,0)` — strip the
time-of-day component, keeping the calendar date. -/
def getDateOnly (t : Time) : Time := msPerDay * (Int.fdiv t msPerDay)

/-! ## Data model: UsdIncome (acquisition lot), UsdSale (disposal record) -/

/-- One acquisition lot (`models/UsdIncome.ts`).  `id` models the
Mongoose document identity, assigned in insertion order. -/
structure UsdIncome where
  id : Nat
  userId : Int
  amountUsd : ℚ
  remainingUsd : ℚ
  nbuRate : ℚ
  taxBaseUah : ℚ
  date : Time
deriving DecidableEq, Repr

/-- One disposal record (`models/UsdSale.ts`). -/
structure UsdSale where
  userId : Int
  amountUsd : ℚ
  sellDate : Time
  monobankRate : ℚ
  sellUah : ℚ
  taxBaseUah : ℚ
  profit : ℚ
deriving DecidableEq, Repr

/-- The persistent state touched by `UsdService`: the two MongoDB
collections, each kept in insertion order. -/
structure Ledger where
  incomes : List UsdIncome
  sales : List UsdSale
deriving DecidableEq, Repr

def Ledger.empty : Ledger := ⟨[], []⟩

/-- `UsdIncome.find({userId, remainingUsd: {$gt: 0}})`: the owner's
lots that still have remaining quantity, in insertion order. -/
def userLots (l : Ledger) (userId : Int) : List UsdIncome :=
  l.incomes.filter fun i => i.userId == userId && decide (0 < i.remainingUsd)

/-- `UsdService.getBalance`: sum of `remainingUsd` over the owner's
lots with positive remaining quantity. -/
def getBalance (l : Ledger) (userId : Int) : ℚ :=
  ((userLots l userId).map (·.remainingUsd)).sum

/-- The sort key of `.sort({ date: 1 })`. -/
def byDateLe (a b : UsdIncome) : Bool := decide (a.date ≤ b.date)

/-- The FIFO queue read by `sellUsd`: lots with remaining quantity,
sorted by acquisition date ascending; ties keep insertion order
(stable sort). -/
def fifoQueue (l : Ledger) (userId : Int) : List UsdIncome :=
  (userLots l userId).mergeSort byDateLe

/-- The proportional cost-basis contribution of consuming `soldAmount`
from a lot: `(amountToSellFromThis / income.amountUsd) * income.taxBaseUah`
(UsdService.ts line 119) — the division-then-multiplication form, not
`soldAmount * income.nbuRate`. -/
def taxBaseContribution (income : UsdIncome) (soldAmount : ℚ) : ℚ :=
  soldAmount / income.amountUsd * income.taxBaseUah

/-- Loop state of the FIFO deduction loop in `sellUsd`
(lines 110–128): `remainingToSell`, `totalTaxBase`, `updatedIncomes`. -/
structure FifoState where
  remainingToSell : ℚ
  totalTaxBase : ℚ
  updatedIncomes : List (UsdIncome × ℚ)
deriving DecidableEq, Repr

/-- One iteration of the FIFO deduction loop: stop if nothing is left
to sell; otherwise take `min(income.remainingUsd, remainingToSell)`
from this lot and record `(income, soldAmount)`. -/
def fifoStep (st : FifoState) (income : UsdIncome) : FifoState :=
  if st.remainingToSell ≤ 0 then st
  else
    let amountToSellFromThis := min income.remainingUsd st.remainingToSell
    { remainingToSell := st.remainingToSell - amountToSellFromThis
      totalTaxBase := st.totalTaxBase + taxBaseContribution income amountToSellFromThis
      updatedIncomes := st.updatedIncomes ++ [(income, amountToSellFromThis)] }

/-- The whole FIFO deduction loop of `sellUsd` over the sorted queue. -/
def fifoConsume (incomes : List UsdIncome) (amountUsd : ℚ) : FifoState :=
  incomes.foldl fifoStep ⟨amountUsd, 0, []⟩

/-- Persisting `income.remainingUsd -= soldAmount; income.save()` for
one consumed lot: the ledger document with the lot's identity is
decremented. -/
def decrementLot (incomes : List UsdIncome) (lotId : Nat) (soldAmount : ℚ) :
    List UsdIncome :=
  incomes.map fun i =>
    if i.id = lotId then { i with remainingUsd := i.remainingUsd - soldAmount } else i

/-- The save loop of `sellUsd` (lines 130–134): persist every
`(income, soldAmount)` pair in order. -/
def applyUpdates (incomes : List UsdIncome) (updates : List (UsdIncome × ℚ)) :
    List UsdIncome :=
  updates.foldl (fun acc u => decrementLot acc u.1.id u.2) incomes

/-- Result record of `UsdService.sellUsd` (message string omitted). -/
structure SellUsdResult where
  success : Bool
  amountUsd : ℚ
  monobankRate : ℚ
  sellUah : ℚ
  taxBaseUah : ℚ
  profit : ℚ
  newBalance : ℚ
deriving DecidableEq, Repr

/-- `UsdService.sellUsd(userId, amountUsd, sellDate)`.  The Monobank
rate, awaited from `CurrencyService.getMonobankBuyRate` after the
balance check, is passed as the `monobankRate` argument; the
rate-failure and save-failure behaviour is modelled separately by
`sellUsdFallible`. -/
def sellUsd (l : Ledger) (userId : Int) (amountUsd : ℚ) (sellDate : Time)
    (monobankRate : ℚ) : Ledger × SellUsdResult :=
  let balance := getBalance l userId
  if balance < amountUsd then
    (l, ⟨false, 0, 0, 0, 0, 0, balance⟩)
  else
    let st := fifoConsume (fifoQueue l userId) amountUsd
    let newIncomes := applyUpdates l.incomes st.updatedIncomes
    let sellUah := amountUsd * monobankRate
    let profit := sellUah - st.totalTaxBase
    let l' : Ledger :=
      ⟨newIncomes,
       l.sales ++ [⟨userId, amountUsd, sellDate, monobankRate, sellUah,
                    st.totalTaxBase, profit⟩]⟩
    (l', ⟨true, amountUsd, monobankRate, sellUah, st.totalTaxBase, profit,
          getBalance l' userId⟩)

/-- `UsdService.addUsd(userId, amountUsd, date)` after the NBU rate has
been awaited: create a lot with `remainingUsd = amountUsd` and
`taxBaseUah = amountUsd * nbuRate`, appended to the collection with a
fresh document identity. -/
def addUsd (l : Ledger) (userId : Int) (amountUsd : ℚ) (nbuRate : ℚ) (date : Time) :
    Ledger :=
  { l with
    incomes := l.incomes ++
      [⟨l.incomes.length, userId, amountUsd, amountUsd, nbuRate,
        amountUsd * nbuRate, date⟩] }

/-! ## Failure-aware disposal (`sellUsd` with explicit effect outcomes)

`sellUsd` awaits the rate lookup, one `income.save()` per consumed lot,
and one `sale.save()`.  Each of those can reject; the surrounding
`try/catch` then returns a failure result, leaving in the database
exactly the saves that completed before the rejection. -/

/-- Outcome of one awaited network call: a value, or an axios
transport error. -/
inductive Fetch (α : Type) where
  | ok (value : α)
  | transportError
deriving DecidableEq, Repr

/-- The save loop with per-save outcomes: the `k`-th `income.save()`
succeeds iff `saveOk k`.  A failed save throws, so its own decrement
and all later saves never reach the database. -/
def applyUpdatesFallible :
    List UsdIncome → List (UsdIncome × ℚ) → (Nat → Bool) → Nat →
    List UsdIncome × Bool
  | incomes, [], _, _ => (incomes, true)
  | incomes, u :: rest, saveOk, k =>
    if saveOk k then applyUpdatesFallible (decrementLot incomes u.1.id u.2) rest saveOk (k + 1)
    else (incomes, false)

/-- The failure result built by the `catch` block of `sellUsd`
(lines 168–179): all numeric fields zero. -/
def sellUsdCaughtError : SellUsdResult := ⟨false, 0, 0, 0, 0, 0, 0⟩

/-- `UsdService.sellUsd` with explicit outcomes for each awaited
effect: `rate` for `getMonobankBuyRate`, `saveOk k` for the `k`-th
`income.save()` in the update loop, `saleSaveOk` for `sale.save()`.
The returned ledger is the database state after the call. -/
def sellUsdFallible (l : Ledger) (userId : Int) (amountUsd : ℚ) (sellDate : Time)
    (rate : Fetch ℚ) (saveOk : Nat → Bool) (saleSaveOk : Bool) :
    Ledger × SellUsdResult :=
  let balance := getBalance l userId
  if balance < amountUsd then
    (l, ⟨false, 0, 0, 0, 0, 0, balance⟩)
  else
    match rate with
    | .transportError => (l, sellUsdCaughtError)
    | .ok monobankRate =>
      let st := fifoConsume (fifoQueue l userId) amountUsd
      let applied := applyUpdatesFallible l.incomes st.updatedIncomes saveOk 0
      if applied.2 then
        if saleSaveOk then
          let sellUah := amountUsd * monobankRate
          let profit := sellUah - st.totalTaxBase
          let l' : Ledger :=
            ⟨applied.1,
             l.sales ++ [⟨userId, amountUsd, sellDate, monobankRate, sellUah,
                          st.totalTaxBase, profit⟩]⟩
          (l', ⟨true, amountUsd, monobankRate, sellUah, st.totalTaxBase, profit,
                getBalance l' userId⟩)
        else ({ l with incomes := applied.1 }, sellUsdCaughtError)
      else ({ l with incomes := applied.1 }, sellUsdCaughtError)

/-! ## The transport-shell gate in front of `sellUsd`

`BotHandlers.handleSellUsd` (src/handlers/BotHandlers.ts lines 270–307)
parses the amount and rejects non-positive values before any service
call: `if (isNaN(amount) || amount <= 0) { ... return; }`. -/

/-- Outcome of the `/sell_usd` command handler. -/
inductive HandlerOutcome where
  | invalidAmount
  | handled (r : SellUsdResult)
deriving DecidableEq, Repr

/-- The `/sell_usd` handler path relevant to quantity validation:
reject `amount ≤ 0` before `UsdService.sellUsd` runs (date parsing,
which happens between the two, is omitted). -/
def handleSellUsd (l : Ledger) (userId : Int) (amount : ℚ) (sellDate : Time)
    (monobankRate : ℚ) : Ledger × HandlerOutcome :=
  if amount ≤ 0 then (l, .invalidAmount)
  else
    let out := sellUsd l userId amount sellDate monobankRate
    (out.1, .handled out.2)

/-! ## CurrencyService: dual-provider rate lookup with TTL cache -/

/-- The `provider` enum of `models/CurrencyCache`. -/
inductive Provider where
  | nbu
  | monobank
deriving DecidableEq, Repr, BEq

/-- One `CurrencyCache` document. -/
structure CacheEntry where
  provider : Provider
  currencyCode : String
  date : Time
  rate : ℚ
  cachedAt : Time
  expiresAt : Time
deriving DecidableEq, Repr

/-- The state and external world read by `CurrencyService`: the cache
collection, the current clock, and the two upstream providers.
`nbuApi d` is the NBU historical endpoint queried for calendar date
`d` (`none` = USD absent from the response); `monoApi` is the Monobank
live endpoint (`none` = USD/UAH pair or its `rateBuy` absent). -/
structure RateEnv where
  cache : List CacheEntry
  now : Time
  nbuApi : Time → Fetch (Option ℚ)
  monoApi : Fetch (Option ℚ)

/-- `CurrencyCache.findOne({provider, currencyCode, date, expiresAt: {$gt: new Date()}})`. -/
def cacheFind (env : RateEnv) (provider : Provider) (code : String) (date : Time) :
    Option ℚ :=
  (env.cache.find? fun e =>
    e.provider == provider && e.currencyCode == code && e.date == date &&
      decide (env.now < e.expiresAt)).map (·.rate)

/-- `CurrencyCache.findOneAndUpdate(key, value, {upsert: true})`. -/
def cacheUpsert (cache : List CacheEntry) (e : CacheEntry) : List CacheEntry :=
  if cache.any fun c =>
      c.provider == e.provider && c.currencyCode == e.currencyCode && c.date == e.date
  then cache.map fun c =>
    if c.provider == e.provider && c.currencyCode == e.currencyCode && c.date == e.date
    then { c with rate := e.rate, cachedAt := e.cachedAt, expiresAt := e.expiresAt }
    else c
  else cache ++ [e]

/-- Error kinds thrown by `CurrencyService`. -/
inductive RateError where
  | nbuTransport
  | nbuRateNotFound
  | monoRateNotFound
deriving DecidableEq, Repr

/-- `CurrencyService.saveToCacheNbu`: long expiry
(`CACHE_DURATION_DAYS = 180`). -/
def saveToCacheNbu (env : RateEnv) (date : Time) (rate : ℚ) : RateEnv :=
  { env with cache :=
      cacheUpsert env.cache ⟨.nbu, "USD", date, rate, env.now, env.now + 180 * msPerDay⟩ }

/-- `CurrencyService.saveToCacheMonobank`: 6-hour expiry for today's
rate, long expiry otherwise. -/
def saveToCacheMonobank (env : RateEnv) (date : Time) (rate : ℚ) : RateEnv :=
  let expiresAt :=
    if getDateOnly date = getDateOnly env.now then env.now + 6 * msPerHour
    else env.now + 180 * msPerDay
  { env with cache :=
      cacheUpsert env.cache ⟨.monobank, "USD", date, rate, env.now, expiresAt⟩ }

/-- `CurrencyService.getNbuRate(date)` — the primary (historical)
provider, `getAcquisitionRate` in the spec: serve from unexpired
cache, else query the NBU endpoint for the truncated date; a transport
error is wrapped and rethrown, an absent USD quote is an error, a
fresh quote is cached with the long expiry. -/
def getNbuRate (env : RateEnv) (date : Time) : Except RateError ℚ × RateEnv :=
  let dateOnly := getDateOnly date
  match cacheFind env .nbu "USD" dateOnly with
  | some r => (.ok r, env)
  | none =>
    match env.nbuApi dateOnly with
    | .transportError => (.error .nbuTransport, env)
    | .ok none => (.error .nbuRateNotFound, env)
    | .ok (some rate) => (.ok rate, saveToCacheNbu env dateOnly rate)

/-- `CurrencyService.getMonobankBuyRate(date)` — `getDisposalRate` in
the spec: for any date other than today, delegate to `getNbuRate`;
for today, serve from unexpired cache, else query the Monobank live
endpoint; a missing USD/UAH `rateBuy` is a plain error rethrown by the
catch block, while an axios transport error falls back to
`getNbuRate(dateOnly)`. -/
def getMonobankBuyRate (env : RateEnv) (date : Time) : Except RateError ℚ × RateEnv :=
  let dateOnly := getDateOnly date
  let today := getDateOnly env.now
  if dateOnly ≠ today then getNbuRate env dateOnly
  else
    match cacheFind env .monobank "USD" dateOnly with
    | some r => (.ok r, env)
    | none =>
      match env.monoApi with
      | .ok (some rateBuy) => (.ok rateBuy, saveToCacheMonobank env dateOnly rateBuy)
      | .ok none => (.error .monoRateNotFound, env)
      | .transportError => getNbuRate env dateOnly

/-! ## NotificationService: registration and throttled P&L checks -/

/-- Result record of `UsdService.getStatus`. -/
structure StatusResult where
  balanceUsd : ℚ
  taxBaseUah : ℚ
  currentValueUah : ℚ
  unrealizedProfitUah : ℚ
  currentMonobankRate : ℚ
deriving DecidableEq, Repr

/-- `UsdService.getStatus(userId)` with the awaited current Monobank
rate passed in: balance and proportional remaining cost basis over the
owner's open lots, current value, unrealized P&L. -/
def getStatus (l : Ledger) (userId : Int) (currentMonobankRate : ℚ) : StatusResult :=
  let lots := userLots l userId
  let balanceUsd := (lots.map (·.remainingUsd)).sum
  let taxBaseUah := (lots.map fun i => i.remainingUsd / i.amountUsd * i.taxBaseUah).sum
  ⟨balanceUsd, taxBaseUah, balanceUsd * currentMonobankRate,
   balanceUsd * currentMonobankRate - taxBaseUah, currentMonobankRate⟩

/-- Per-user notification state (`NotificationService.ts`). -/
structure UserNotificationState where
  userId : Int
  chatId : Int
  lastNotifiedPnL : ℚ
  lastNotifiedRate : ℚ
  lastNotificationTime : Time
deriving DecidableEq, Repr

/-- The process-wide `userStates : Map<number, UserNotificationState>`. -/
def UserStates : Type := Int → Option UserNotificationState

/-- `NotificationService.MIN_NOTIFICATION_INTERVAL_HOURS = 6`. -/
def MIN_NOTIFICATION_INTERVAL_HOURS : ℚ := 6

/-- `NotificationService.registerUser(userId, chatId)`: only when the
user is not yet in the map, insert fresh state with the
`new Date(0)` sentinel timestamp. -/
def registerUser (states : UserStates) (userId chatId : Int) : UserStates :=
  match states userId with
  | some _ => states
  | none => fun u =>
      if u = userId then some ⟨userId, chatId, 0, 0, 0⟩ else states u

/-- `NotificationService.checkUserPnL` for one user, with the awaited
status and the current clock passed in.  Returns whether a
notification was emitted, and the state afterwards: skip on zero
balance, skip when fewer than 6 hours have elapsed since
`lastNotificationTime`, otherwise notify and update all three
last-notified fields. -/
def checkUserPnL (now : Time) (status : StatusResult)
    (state : UserNotificationState) : Bool × UserNotificationState :=
  if status.balanceUsd = 0 then (false, state)
  else
    let hoursSinceLastNotification : ℚ :=
      ((now : ℚ) - (state.lastNotificationTime : ℚ)) / (1000 * 60 * 60)
    if hoursSinceLastNotification < MIN_NOTIFICATION_INTERVAL_HOURS then (false, state)
    else
      (true, { state with
        lastNotifiedPnL := status.unrealizedProfitUah
        lastNotifiedRate := status.currentMonobankRate
        lastNotificationTime := now })

/-! ## The FIFO walk, as the spec words it

`specFifoWalk` is the consumption plan described by the spec (§4.2):
walk the lots oldest-first, take `min(remainingQuantity,
quantityStillNeeded)` from each, record `(lot, consumedAmount)`, stop
once the requested quantity is fully allocated. -/

def specFifoWalk : List UsdIncome → ℚ → List (UsdIncome × ℚ)
  | [], _ => []
  | lot :: rest, need =>
    if need ≤ 0 then []
    else
      let taken := min lot.remainingUsd need
      (lot, taken) :: specFifoWalk rest (need - taken)

/-- Total quantity consumed by an update list. -/
def consumedSum (updates : List (UsdIncome × ℚ)) : ℚ := (updates.map (·.2)).sum

/-- Total proportional cost basis of an update list. -/
def taxSum (updates : List (UsdIncome × ℚ)) : ℚ :=
  (updates.map fun u => taxBaseContribution u.1 u.2).sum

/-- Total quantity an update list consumes from the lot with identity
`lotId`. -/
def soldFor (updates : List (UsdIncome × ℚ)) (lotId : Nat) : ℚ :=
  ((updates.filter fun u => u.1.id == lotId).map (·.2)).sum

/-- Sum of remaining quantities over the owner's documents, with no
positivity filter. -/
def totalRemaining (l : Ledger) (u : Int) : ℚ :=
  ((l.incomes.filter fun i => i.userId == u).map (·.remainingUsd)).sum

/-- Well-formedness maintained by the service: document identities are
the insertion indices, and no remaining quantity is negative. -/
def WF (l : Ledger) : Prop :=
  l.incomes.map (·.id) = List.range l.incomes.length ∧
    ∀ i ∈ l.incomes, 0 ≤ i.remainingUsd

/-- Sum of acquired `originalQuantity` over the owner's lots. -/
def acquiredSum (l : Ledger) (u : Int) : ℚ :=
  ((l.incomes.filter fun i => i.userId == u).map (·.amountUsd)).sum

/-- Sum of disposed quantities over the owner's sale records. -/
def disposedSum (l : Ledger) (u : Int) : ℚ :=
  ((l.sales.filter fun s => s.userId == u).map (·.amountUsd)).sum

/-- The conservation invariant, for every owner at once. -/
def Conserved (l : Ledger) : Prop :=
  ∀ u : Int, totalRemaining l u = acquiredSum l u - disposedSum l u

/-- One transport-shell request: an acquisition (`/add_usd`) with its
awaited NBU rate, or a disposal (`/sell_usd`) with its awaited
Monobank rate. -/
inductive LedgerOp where
  | acquire (userId : Int) (amountUsd : ℚ) (nbuRate : ℚ) (date : Time)
  | dispose (userId : Int) (amountUsd : ℚ) (sellDate : Time) (monobankRate : ℚ)
deriving DecidableEq, Repr

def LedgerOp.quantity : LedgerOp → ℚ
  | .acquire _ q _ _ => q
  | .dispose _ q _ _ => q

def applyOp (l : Ledger) : LedgerOp → Ledger
  | .acquire u q r d => addUsd l u q r d
  | .dispose u q d r => (sellUsd l u q d r).1

def runOps (l : Ledger) (ops : List LedgerOp) : Ledger := ops.foldl applyOp l

/-! ## Concrete instances used by the examples and witnesses -/

/-- A lot of 50 USD acquired on 2026-01-01 at rate 40
(`1767225600000` = 2026-01-01T00:00:00Z in epoch milliseconds). -/
def exampleLot1 : UsdIncome := ⟨0, 1, 50, 50, 40, 2000, 1767225600000⟩

/-- A lot of 100 USD acquired on 2026-01-15 at rate 41. -/
def exampleLot2 : UsdIncome := ⟨1, 1, 100, 100, 41, 4100, 1768435200000⟩

/-- The two-lot ledger of the spec's FIFO example. -/
def exampleLedger : Ledger := ⟨[exampleLot1, exampleLot2], []⟩

/-- The single-lot ledger of the proportional-cost-basis example:
original 100 at rate 40.0, cost basis 4000. -/
def exampleLot3 : UsdIncome := ⟨0, 1, 100, 100, 40, 4000, 1767225600000⟩

def exampleLedger3 : Ledger := ⟨[exampleLot3], []⟩

/-- A rate environment for the fallback witnesses: empty cache, clock
at epoch 0, NBU answering rate 40 for every date, Monobank down. -/
def exampleEnv : RateEnv := ⟨[], 0, fun _ => .ok (some 40), .transportError⟩

/-- A notification-state map holding one registered user. -/
def exampleStates : UserStates := fun u =>
  if u = 7 then some ⟨7, 9, 15, 41, 1700000000000⟩ else none

/-! ## Theorems -/

theorem getDateOnly_idem (t : Time) : getDateOnly (getDateOnly t) = getDateOnly t := by
  unfold getDateOnly
  rw [Int.mul_fdiv_cancel_left]
  decide

theorem specFifoWalk_nonpos {need : ℚ} (lots : List UsdIncome) (h : need ≤ 0) :
    specFifoWalk lots need = [] := by
  cases lots with
  | nil => rfl
  | cons lot rest => simp [specFifoWalk, h]

/-- The FIFO deduction loop computes exactly the spec walk: final
`remainingToSell`, accumulated tax base, and recorded updates. -/
theorem fifoFold_spec (lots : List UsdIncome) (st : FifoState) :
    lots.foldl fifoStep st =
      ⟨st.remainingToSell - consumedSum (specFifoWalk lots st.remainingToSell),
       st.totalTaxBase + taxSum (specFifoWalk lots st.remainingToSell),
       st.updatedIncomes ++ specFifoWalk lots st.remainingToSell⟩ := by
  induction lots generalizing st with
  | nil => simp [specFifoWalk, consumedSum, taxSum]
  | cons lot rest ih =>
    rw [List.foldl_cons]
    by_cases h : st.remainingToSell ≤ 0
    · have hstep : fifoStep st lot = st := by simp [fifoStep, h]
      rw [hstep, ih]
      simp [specFifoWalk_nonpos _ h, consumedSum, taxSum]
    · have hstep : fifoStep st lot =
          ⟨st.remainingToSell - min lot.remainingUsd st.remainingToSell,
           st.totalTaxBase +
             taxBaseContribution lot (min lot.remainingUsd st.remainingToSell),
           st.updatedIncomes ++ [(lot, min lot.remainingUsd st.remainingToSell)]⟩ := by
        simp [fifoStep, h]
      rw [hstep, ih]
      simp only [specFifoWalk, if_neg h, consumedSum, taxSum, List.map_cons,
        List.sum_cons, FifoState.mk.injEq]
      refine ⟨by ring, by ring, by simp⟩

theorem fifoConsume_spec (lots : List UsdIncome) (q : ℚ) :
    fifoConsume lots q =
      ⟨q - consumedSum (specFifoWalk lots q), taxSum (specFifoWalk lots q),
       specFifoWalk lots q⟩ := by
  have h := fifoFold_spec lots ⟨q, 0, []⟩
  simpa [fifoConsume] using h

/-- Each step of the walk consumes from a lot of the walked list, and
never more than that lot's remaining quantity. -/
theorem specFifoWalk_mem {lots : List UsdIncome} {need : ℚ}
    {p : UsdIncome × ℚ} (hp : p ∈ specFifoWalk lots need) :
    p.1 ∈ lots ∧ p.2 ≤ p.1.remainingUsd := by
  induction lots generalizing need with
  | nil => simp [specFifoWalk] at hp
  | cons lot rest ih =>
    by_cases h : need ≤ 0
    · simp [specFifoWalk, h] at hp
    · simp only [specFifoWalk, if_neg h, List.mem_cons] at hp
      rcases hp with hp | hp
      · subst hp
        exact ⟨List.mem_cons_self _ _, min_le_left _ _⟩
      · rcases ih hp with ⟨h1, h2⟩
        exact ⟨List.mem_cons_of_mem _ h1, h2⟩

/-- The walked lots are an initial segment of the queue. -/
theorem specFifoWalk_front (lots : List UsdIncome) (need : ℚ) :
    ((specFifoWalk lots need).map Prod.fst) <+: lots := by
  induction lots generalizing need with
  | nil => simp [specFifoWalk]
  | cons lot rest ih =>
    by_cases h : need ≤ 0
    · simp [specFifoWalk, h]
    · simpa [specFifoWalk, h, List.cons_prefix_cons] using
        ih (need - min lot.remainingUsd need)

/-- Full allocation: when the requested quantity is available, the
walk consumes exactly the requested quantity. -/
theorem specFifoWalk_consumedSum {lots : List UsdIncome} {need : ℚ}
    (h0 : 0 ≤ need) (hpos : ∀ i ∈ lots, 0 ≤ i.remainingUsd)
    (hle : need ≤ (lots.map (·.remainingUsd)).sum) :
    consumedSum (specFifoWalk lots need) = need := by
  induction lots generalizing need with
  | nil =>
    simp only [List.map_nil, List.sum_nil] at hle
    have : need = 0 := le_antisymm hle h0
    simp [specFifoWalk, consumedSum, this]
  | cons lot rest ih =>
    by_cases h : need ≤ 0
    · have hz : need = 0 := le_antisymm h h0
      subst hz
      simp [specFifoWalk_nonpos _ (le_refl (0 : ℚ)), consumedSum]
    · push_neg at h
      have hlot : 0 ≤ lot.remainingUsd := hpos lot (List.mem_cons_self _ _)
      have hrest : ∀ i ∈ rest, 0 ≤ i.remainingUsd :=
        fun i hi => hpos i (List.mem_cons_of_mem _ hi)
      have hsumrest : 0 ≤ (rest.map (·.remainingUsd)).sum :=
        List.sum_nonneg (by simpa using hrest)
      simp only [List.map_cons, List.sum_cons] at hle
      have h0' : 0 ≤ need - min lot.remainingUsd need := by
        have := min_le_right lot.remainingUsd need
        linarith
      have hle' : need - min lot.remainingUsd need ≤ (rest.map (·.remainingUsd)).sum := by
        rcases le_total lot.remainingUsd need with hmin | hmin
        · rw [min_eq_left hmin]; linarith
        · rw [min_eq_right hmin]; linarith
      have := ih h0' hrest hle'
      simp only [specFifoWalk, if_neg (not_le.mpr h), consumedSum, List.map_cons,
        List.sum_cons] at this ⊢
      rw [this]; ring

/-! ## Characterizing the save loop -/

theorem soldFor_cons (l : UsdIncome) (a : ℚ) (ups : List (UsdIncome × ℚ)) (j : Nat) :
    soldFor ((l, a) :: ups) j = (if l.id = j then a else 0) + soldFor ups j := by
  by_cases h : l.id = j <;> simp [soldFor, List.filter_cons, h]

theorem soldFor_eq_zero {ups : List (UsdIncome × ℚ)} {j : Nat}
    (h : ∀ u ∈ ups, u.1.id ≠ j) : soldFor ups j = 0 := by
  induction ups with
  | nil => rfl
  | cons u ups ih =>
    obtain ⟨l, a⟩ := u
    rw [soldFor_cons, if_neg (h (l, a) (List.mem_cons_self _ _)),
      ih fun v hv => h v (List.mem_cons_of_mem _ hv), add_zero]

theorem soldFor_of_nodup {ups : List (UsdIncome × ℚ)}
    (hnd : (ups.map (·.1.id)).Nodup) {l : UsdIncome} {a : ℚ} (h : (l, a) ∈ ups) :
    soldFor ups l.id = a := by
  induction ups with
  | nil => cases h
  | cons u ups ih =>
    obtain ⟨l₀, a₀⟩ := u
    rw [List.map_cons, List.nodup_cons] at hnd
    rcases List.mem_cons.mp h with h | h
    · obtain ⟨rfl, rfl⟩ := Prod.mk.injEq .. ▸ h
      have hz : soldFor ups l.id = 0 := by
        refine soldFor_eq_zero fun v hv he => hnd.1 ?_
        exact he ▸ List.mem_map_of_mem (·.1.id) hv
      rw [soldFor_cons, if_pos rfl, hz, add_zero]
    · have hne : ¬ l₀.id = l.id := fun he => hnd.1 (he ▸ List.mem_map_of_mem (·.1.id) h)
      rw [soldFor_cons, if_neg hne, ih hnd.2 h, zero_add]

/-- The save loop, summarized: every document's remaining quantity
drops by exactly the total the update list consumes from it (other
fields untouched). -/
theorem applyUpdates_eq_map (incomes : List UsdIncome) (updates : List (UsdIncome × ℚ)) :
    applyUpdates incomes updates =
      incomes.map fun i =>
        { i with remainingUsd := i.remainingUsd - soldFor updates i.id } := by
  induction updates generalizing incomes with
  | nil =>
    have : (fun i : UsdIncome =>
        { i with remainingUsd := i.remainingUsd - soldFor [] i.id }) = fun i => i := by
      funext i
      simp [soldFor]
    simp [applyUpdates, this]
  | cons u ups ih =>
    obtain ⟨l, a⟩ := u
    have hfold : applyUpdates incomes ((l, a) :: ups) =
        applyUpdates (decrementLot incomes l.id a) ups := by
      simp [applyUpdates]
    rw [hfold, ih, decrementLot, List.map_map]
    refine List.map_congr_left fun i _ => ?_
    by_cases h : i.id = l.id
    · simp [Function.comp, h, soldFor_cons, sub_sub]
    · have : ¬ l.id = i.id := fun he => h he.symm
      simp [Function.comp, h, soldFor_cons, this]

theorem applyUpdates_map_id (incomes : List UsdIncome) (updates : List (UsdIncome × ℚ)) :
    (applyUpdates incomes updates).map (·.id) = incomes.map (·.id) := by
  rw [applyUpdates_eq_map, List.map_map]
  rfl

theorem applyUpdates_length (incomes : List UsdIncome) (updates : List (UsdIncome × ℚ)) :
    (applyUpdates incomes updates).length = incomes.length := by
  rw [applyUpdates_eq_map, List.length_map]

/-! ## Queue membership and identity bookkeeping -/

theorem fifoQueue_perm (l : Ledger) (u : Int) :
    (fifoQueue l u).Perm (userLots l u) :=
  List.mergeSort_perm _ _

theorem userLots_sublist (l : Ledger) (u : Int) :
    (userLots l u).Sublist l.incomes :=
  List.filter_sublist _

theorem mem_userLots {l : Ledger} {u : Int} {i : UsdIncome} (h : i ∈ userLots l u) :
    i ∈ l.incomes ∧ i.userId = u ∧ 0 < i.remainingUsd := by
  rw [userLots, List.mem_filter] at h
  simpa using h

theorem mem_fifoQueue {l : Ledger} {u : Int} {i : UsdIncome} (h : i ∈ fifoQueue l u) :
    i ∈ l.incomes ∧ i.userId = u ∧ 0 < i.remainingUsd :=
  mem_userLots ((fifoQueue_perm l u).mem_iff.mp h)

theorem nodup_ids_fifoQueue {l : Ledger} {u : Int}
    (h : (l.incomes.map (·.id)).Nodup) : ((fifoQueue l u).map (·.id)).Nodup := by
  have hsub : ((userLots l u).map (·.id)).Nodup :=
    ((userLots_sublist l u).map (·.id)).nodup h
  exact (((fifoQueue_perm l u).map (·.id)).nodup_iff).mpr hsub

/-- With unique document identities, two ledger documents with the
same identity are the same document. -/
theorem eq_of_id_eq {xs : List UsdIncome} (hnd : (xs.map (·.id)).Nodup)
    {a b : UsdIncome} (ha : a ∈ xs) (hb : b ∈ xs) (hid : a.id = b.id) : a = b :=
  List.inj_on_of_nodup_map hnd ha hb hid

/-! ## Sums over the ledger -/

theorem sum_map_add_distrib {α : Type} (xs : List α) (f g : α → ℚ) :
    (xs.map fun x => f x + g x).sum = (xs.map f).sum + (xs.map g).sum := by
  induction xs with
  | nil => simp
  | cons x xs ih => simp only [List.map_cons, List.sum_cons, ih]; ring

theorem sum_indicator_id {incs : List UsdIncome} (hnd : (incs.map (·.id)).Nodup)
    {l : UsdIncome} (hl : l ∈ incs) (a : ℚ) :
    (incs.map fun i => if l.id = i.id then a else 0).sum = a := by
  induction incs with
  | nil => cases hl
  | cons x xs ih =>
    rw [List.map_cons, List.nodup_cons] at hnd
    rcases List.mem_cons.mp hl with h | h
    · subst h
      have hz : (xs.map fun i => if l.id = i.id then a else 0).sum = 0 := by
        refine List.sum_eq_zero fun v hv => ?_
        obtain ⟨i, hi, rfl⟩ := List.mem_map.mp hv
        have : ¬ l.id = i.id := fun he => hnd.1 (he ▸ List.mem_map_of_mem (·.id) hi)
        simp [this]
      simp [hz]
    · have hne : ¬ l.id = x.id := by
        intro he
        exact hnd.1 (he ▸ List.mem_map_of_mem (·.id) h)
      simp [hne, ih hnd.2 h]

/-- Summed over documents with unique identities that cover the update
list, the per-document consumption totals add up to the total consumed
quantity. -/
theorem sum_map_soldFor {incs : List UsdIncome} {ups : List (UsdIncome × ℚ)}
    (hnd : (incs.map (·.id)).Nodup) (hmem : ∀ u ∈ ups, u.1 ∈ incs) :
    (incs.map fun i => soldFor ups i.id).sum = consumedSum ups := by
  induction ups with
  | nil => simp [soldFor, consumedSum]
  | cons u ups ih =>
    obtain ⟨l, a⟩ := u
    have h1 : (incs.map fun i => soldFor ((l, a) :: ups) i.id).sum =
        (incs.map fun i => if l.id = i.id then a else 0).sum +
          (incs.map fun i => soldFor ups i.id).sum := by
      rw [← sum_map_add_distrib]
      exact congrArg List.sum (List.map_congr_left fun i _ => soldFor_cons l a ups i.id)
    rw [h1, sum_indicator_id hnd (hmem (l, a) (List.mem_cons_self _ _)) a,
      ih fun v hv => hmem v (List.mem_cons_of_mem _ hv)]
    simp [consumedSum]

/-- When no document has negative remaining quantity, the positivity
filter in `getBalance` drops only zero summands. -/
theorem balance_filter_pos (xs : List UsdIncome) (u : Int)
    (h : ∀ i ∈ xs, 0 ≤ i.remainingUsd) :
    ((xs.filter fun i => i.userId == u && decide (0 < i.remainingUsd)).map
        (·.remainingUsd)).sum
      = ((xs.filter fun i => i.userId == u).map (·.remainingUsd)).sum := by
  induction xs with
  | nil => rfl
  | cons x xs ih =>
    have hx := h x (List.mem_cons_self _ _)
    have ih' := ih fun i hi => h i (List.mem_cons_of_mem _ hi)
    by_cases hu : x.userId = u
    · by_cases hp : 0 < x.remainingUsd
      · simp [List.filter_cons, hu, hp, ih']
      · have h0 : x.remainingUsd = 0 := le_antisymm (not_lt.mp hp) hx
        simp [List.filter_cons, hu, hp, ih', h0]
    · simp [List.filter_cons, hu, ih']

theorem getBalance_eq_totalRemaining {l : Ledger} {u : Int}
    (h : ∀ i ∈ l.incomes, 0 ≤ i.remainingUsd) :
    getBalance l u = totalRemaining l u :=
  balance_filter_pos l.incomes u h

theorem getBalance_eq_fifoQueue_sum (l : Ledger) (u : Int) :
    getBalance l u = ((fifoQueue l u).map (·.remainingUsd)).sum := by
  unfold getBalance
  exact (((fifoQueue_perm l u).map (·.remainingUsd)).sum_eq).symm

theorem WF.nodup_ids {l : Ledger} (h : WF l) : (l.incomes.map (·.id)).Nodup := by
  rw [h.1]; exact List.nodup_range _

theorem WF_empty : WF Ledger.empty := by
  constructor <;> simp [Ledger.empty]

/-! ## The success path of `sellUsd` -/

theorem sellUsd_incomes_of_success {l : Ledger} {u : Int} {q : ℚ} {d : Time} {r : ℚ}
    (hbal : ¬ getBalance l u < q) :
    (sellUsd l u q d r).1.incomes =
      l.incomes.map fun i =>
        { i with remainingUsd :=
            i.remainingUsd - soldFor (specFifoWalk (fifoQueue l u) q) i.id } := by
  simp [sellUsd, hbal, fifoConsume_spec, applyUpdates_eq_map]

theorem sellUsd_sales_of_success {l : Ledger} {u : Int} {q : ℚ} {d : Time} {r : ℚ}
    (hbal : ¬ getBalance l u < q) :
    (sellUsd l u q d r).1.sales =
      l.sales ++ [⟨u, q, d, r, q * r, taxSum (specFifoWalk (fifoQueue l u) q),
                   q * r - taxSum (specFifoWalk (fifoQueue l u) q)⟩] := by
  simp [sellUsd, hbal, fifoConsume_spec]

/-- Documents of other owners are never decremented by the walk. -/
theorem soldFor_walk_eq_zero_of_ne_user {l : Ledger} {u : Int}
    (hnd : (l.incomes.map (·.id)).Nodup) {q : ℚ} {i : UsdIncome}
    (hi : i ∈ l.incomes) (hu : i.userId ≠ u) :
    soldFor (specFifoWalk (fifoQueue l u) q) i.id = 0 := by
  refine soldFor_eq_zero fun v hv he => ?_
  obtain ⟨hvq, -⟩ := specFifoWalk_mem hv
  obtain ⟨hvinc, hvuser, -⟩ := mem_fifoQueue hvq
  exact hu ((eq_of_id_eq hnd hvinc hi he).symm ▸ hvuser)

theorem nodup_walk_ids {l : Ledger} {u : Int}
    (hnd : (l.incomes.map (·.id)).Nodup) (q : ℚ) :
    ((specFifoWalk (fifoQueue l u) q).map (·.1.id)).Nodup := by
  have h1 : (specFifoWalk (fifoQueue l u) q).map (·.1.id) =
      ((specFifoWalk (fifoQueue l u) q).map Prod.fst).map (·.id) := by
    rw [List.map_map]; rfl
  rw [h1]
  exact ((specFifoWalk_front (fifoQueue l u) q).sublist.map (·.id)).nodup
    (nodup_ids_fifoQueue hnd)

/-- No document is driven below zero by the walk. -/
theorem remaining_nonneg_after_walk {l : Ledger} {u : Int}
    (hnd : (l.incomes.map (·.id)).Nodup) {q : ℚ} {i : UsdIncome}
    (hi : i ∈ l.incomes) (h0 : 0 ≤ i.remainingUsd) :
    0 ≤ i.remainingUsd - soldFor (specFifoWalk (fifoQueue l u) q) i.id := by
  by_cases hz : ∀ v ∈ specFifoWalk (fifoQueue l u) q, v.1.id ≠ i.id
  · rw [soldFor_eq_zero hz]; linarith
  · push_neg at hz
    obtain ⟨v, hv, hid⟩ := hz
    obtain ⟨hvq, hvle⟩ := specFifoWalk_mem hv
    obtain ⟨hvinc, -, -⟩ := mem_fifoQueue hvq
    have hvi : v.1 = i := eq_of_id_eq hnd hvinc hi hid
    have hmem : (i, v.2) ∈ specFifoWalk (fifoQueue l u) q := by
      rw [← hvi]; exact hv
    have := soldFor_of_nodup (nodup_walk_ids hnd q) hmem
    rw [this]
    rw [hvi] at hvle
    linarith

/-- On the success path the walk consumes exactly the requested
quantity. -/
theorem consumedSum_walk_of_success {l : Ledger} {u : Int} {q : ℚ}
    (hq : 0 ≤ q) (hbal : ¬ getBalance l u < q) :
    consumedSum (specFifoWalk (fifoQueue l u) q) = q := by
  refine specFifoWalk_consumedSum hq (fun i hi => le_of_lt (mem_fifoQueue hi).2.2) ?_
  rw [← getBalance_eq_fifoQueue_sum]
  exact not_lt.mp hbal

/-! ## Balance conservation over operation sequences -/

theorem Conserved_empty : Conserved Ledger.empty := by
  intro u
  simp [totalRemaining, acquiredSum, disposedSum, Ledger.empty]

theorem filter_userId_map (xs : List UsdIncome) (f : UsdIncome → UsdIncome)
    (hf : ∀ i, (f i).userId = i.userId) (u : Int) :
    (xs.map f).filter (fun i => i.userId == u) =
      (xs.filter fun i => i.userId == u).map f := by
  induction xs with
  | nil => rfl
  | cons x xs ih =>
    by_cases h : x.userId = u <;> simp [List.filter_cons, hf, h, ih]

theorem sum_map_sub_distrib {α : Type} (xs : List α) (f g : α → ℚ) :
    (xs.map fun x => f x - g x).sum = (xs.map f).sum - (xs.map g).sum := by
  induction xs with
  | nil => simp
  | cons x xs ih => simp only [List.map_cons, List.sum_cons, ih]; ring

theorem WF_addUsd {l : Ledger} (h : WF l) {q : ℚ} (hq : 0 ≤ q)
    (u : Int) (r : ℚ) (d : Time) : WF (addUsd l u q r d) := by
  constructor
  · simp [addUsd, h.1, List.range_succ]
  · intro i hi
    simp only [addUsd, List.mem_append, List.mem_singleton] at hi
    rcases hi with hi | hi
    · exact h.2 i hi
    · subst hi; simpa using hq

theorem Conserved_addUsd {l : Ledger} (h : Conserved l) (u : Int) (q r : ℚ)
    (d : Time) : Conserved (addUsd l u q r d) := by
  intro v
  have hbase := h v
  by_cases hv : u = v <;>
    · simp only [totalRemaining, acquiredSum, disposedSum, addUsd,
        List.filter_append, List.map_append, List.sum_append] at hbase ⊢
      simp [hv, List.filter_cons]
      linarith

theorem WF_sellUsd {l : Ledger} (h : WF l) (u : Int) (q : ℚ) (d : Time) (r : ℚ) :
    WF (sellUsd l u q d r).1 := by
  by_cases hlt : getBalance l u < q
  · simpa [sellUsd, hlt] using h
  · constructor
    · rw [sellUsd_incomes_of_success hlt, List.map_map, List.length_map]
      exact h.1
    · intro i hi
      rw [sellUsd_incomes_of_success hlt] at hi
      obtain ⟨j, hj, rfl⟩ := List.mem_map.mp hi
      exact remaining_nonneg_after_walk h.nodup_ids hj (h.2 j hj)

theorem Conserved_sellUsd {l : Ledger} (hWF : WF l) (hC : Conserved l) (u : Int)
    {q : ℚ} (hq : 0 ≤ q) (d : Time) (r : ℚ) :
    Conserved (sellUsd l u q d r).1 := by
  by_cases hlt : getBalance l u < q
  · simpa [sellUsd, hlt] using hC
  · intro v
    have hbase := hC v
    have hincomes := sellUsd_incomes_of_success (d := d) (r := r) hlt
    have hsales := sellUsd_sales_of_success (d := d) (r := r) hlt
    have hfu : ∀ i : UsdIncome,
        ((fun j : UsdIncome =>
          { j with remainingUsd :=
              j.remainingUsd - soldFor (specFifoWalk (fifoQueue l u) q) j.id }) i).userId
          = i.userId := fun i => rfl
    have hTR : totalRemaining (sellUsd l u q d r).1 v
        = totalRemaining l v
          - ((l.incomes.filter fun i => i.userId == v).map
              fun i => soldFor (specFifoWalk (fifoQueue l u) q) i.id).sum := by
      rw [totalRemaining, hincomes, filter_userId_map _ _ hfu v, List.map_map]
      exact sum_map_sub_distrib _ _ _
    have hAS : acquiredSum (sellUsd l u q d r).1 v = acquiredSum l v := by
      rw [acquiredSum, hincomes, filter_userId_map _ _ hfu v, List.map_map]
      rfl
    have hDS : disposedSum (sellUsd l u q d r).1 v
        = disposedSum l v + (if u = v then q else 0) := by
      rw [disposedSum, hsales, List.filter_append]
      by_cases huv : u = v <;> simp [huv, List.filter_cons, disposedSum]
    by_cases huv : u = v
    · subst huv
      have hsum : ((l.incomes.filter fun i => i.userId == u).map
          fun i => soldFor (specFifoWalk (fifoQueue l u) q) i.id).sum = q := by
        have hnd : ((l.incomes.filter fun i => i.userId == u).map (·.id)).Nodup :=
          ((List.filter_sublist l.incomes).map fun i : UsdIncome => i.id).nodup
            hWF.nodup_ids
        have hmem : ∀ p ∈ specFifoWalk (fifoQueue l u) q,
            p.1 ∈ l.incomes.filter fun i => i.userId == u := by
          intro p hp
          obtain ⟨hpq, -⟩ := specFifoWalk_mem hp
          obtain ⟨hpinc, hpuser, -⟩ := mem_fifoQueue hpq
          rw [List.mem_filter]
          exact ⟨hpinc, by simp [hpuser]⟩
        rw [sum_map_soldFor hnd hmem, consumedSum_walk_of_success hq hlt]
      rw [hTR, hAS, hDS, hsum, hbase]
      simp
      ring
    · have hzero : ((l.incomes.filter fun i => i.userId == v).map
          fun i => soldFor (specFifoWalk (fifoQueue l u) q) i.id).sum = 0 := by
        refine List.sum_eq_zero fun x hx => ?_
        obtain ⟨i, hi, rfl⟩ := List.mem_map.mp hx
        rw [List.mem_filter] at hi
        have huser : i.userId = v := by simpa using hi.2
        refine soldFor_walk_eq_zero_of_ne_user hWF.nodup_ids hi.1 ?_
        rw [huser]
        exact fun hc => huv hc.symm
      rw [hTR, hAS, hDS, hzero, hbase]
      simp [huv]

theorem totalRemaining_nonneg {l : Ledger}
    (h : ∀ i ∈ l.incomes, 0 ≤ i.remainingUsd) (u : Int) :
    0 ≤ totalRemaining l u := by
  refine List.sum_nonneg fun x hx => ?_
  obtain ⟨i, hi, rfl⟩ := List.mem_map.mp hx
  exact h i (List.mem_of_mem_filter hi)

/-! ## Operation sequences -/

theorem runOps_invariant {ops : List LedgerOp} {l : Ledger}
    (h : WF l ∧ Conserved l) (hq : ∀ op ∈ ops, 0 < op.quantity) :
    WF (runOps l ops) ∧ Conserved (runOps l ops) := by
  induction ops generalizing l with
  | nil => exact h
  | cons op ops ih =>
    have hop := hq op (List.mem_cons_self _ _)
    have hrest : ∀ o ∈ ops, 0 < o.quantity :=
      fun o ho => hq o (List.mem_cons_of_mem _ ho)
    rw [runOps, List.foldl_cons]
    cases op with
    | acquire u q r d =>
      exact ih ⟨WF_addUsd h.1 (le_of_lt hop) u r d, Conserved_addUsd h.2 u q r d⟩ hrest
    | dispose u q d r =>
      exact ih ⟨WF_sellUsd h.1 u q d r, Conserved_sellUsd h.1 h.2 u (le_of_lt hop) d r⟩
        hrest

/-! ## Claim theorems -/

/-- Claim C4: disposing a quantity strictly greater than the owner's
current balance returns the insufficient-balance failure result — a
result value, not an exception — whose `newBalance` field carries the
owner's current balance, and leaves the ledger (every lot's
`remainingUsd`, and the sale records) unchanged. -/
theorem sellUsd_insufficient_balance (l : Ledger) (u : Int) (q : ℚ) (d : Time)
    (r : ℚ) (h : getBalance l u < q) :
    (sellUsd l u q d r).1 = l
      ∧ (sellUsd l u q d r).2.success = false
      ∧ (sellUsd l u q d r).2.newBalance = getBalance l u := by
  refine ⟨?_, ?_, ?_⟩ <;> simp [sellUsd, h]

theorem sellUsd_insufficient_balance_witness :
    getBalance exampleLedger 1 < 200
      ∧ (sellUsd exampleLedger 1 200 0 42).1 = exampleLedger
      ∧ (sellUsd exampleLedger 1 200 0 42).2.success = false
      ∧ (sellUsd exampleLedger 1 200 0 42).2.newBalance = getBalance exampleLedger 1 := by
  have hlt : getBalance exampleLedger 1 < 200 := by
    norm_num [getBalance, userLots, exampleLedger, exampleLot1, exampleLot2,
      List.filter]
  obtain ⟨h1, h2, h3⟩ := sellUsd_insufficient_balance exampleLedger 1 200 0 42 hlt
  exact ⟨hlt, h1, h2, h3⟩

/-- Claim C10: `registerUser` is idempotent and state-preserving — for an
already-registered owner the whole map (hence that owner's
`lastNotifiedPnL`, `lastNotifiedRate`, `lastNotificationTime`, and the
throttle they drive) is left unchanged, while an unregistered owner
gets fresh state with the `new Date(0)` sentinel timestamp. -/
theorem registerUser_idempotent (m : UserStates) (u c : Int) :
    (∀ s, m u = some s → registerUser m u c = m)
      ∧ (m u = none →
          registerUser m u c =
            fun v => if v = u then some ⟨u, c, 0, 0, 0⟩ else m v) := by
  constructor
  · intro s hs
    simp [registerUser, hs]
  · intro h
    simp [registerUser, h]

theorem registerUser_idempotent_witness :
    exampleStates 7 = some ⟨7, 9, 15, 41, 1700000000000⟩
      ∧ registerUser exampleStates 7 99 = exampleStates
      ∧ exampleStates 8 = none
      ∧ registerUser exampleStates 8 5 =
          fun v => if v = 8 then some ⟨8, 5, 0, 0, 0⟩ else exampleStates v := by
  refine ⟨rfl, ?_, rfl, ?_⟩
  · exact (registerUser_idempotent exampleStates 7 99).1 _ rfl
  · exact (registerUser_idempotent exampleStates 8 5).2 rfl

/-- Claim C9: the notification check never emits on zero balance (and
leaves the state untouched); when it emits, `lastNotifiedPnL`,
`lastNotifiedRate` and `lastNotificationTime` are updated to the
current values; and a second check that occurs before the fixed
6-hour minimum interval has elapsed since the state's
`lastNotificationTime` never emits — so two such checks emit at most
one notification between them. -/
theorem notification_throttle (now₁ now₂ : Time) (s₁ s₂ : StatusResult)
    (st : UserNotificationState) :
    (s₁.balanceUsd = 0 → checkUserPnL now₁ s₁ st = (false, st))
      ∧ ((checkUserPnL now₁ s₁ st).1 = true →
          (checkUserPnL now₁ s₁ st).2 =
            { st with
              lastNotifiedPnL := s₁.unrealizedProfitUah
              lastNotifiedRate := s₁.currentMonobankRate
              lastNotificationTime := now₁ })
      ∧ (((now₂ : ℚ) - ((checkUserPnL now₁ s₁ st).2.lastNotificationTime : ℚ))
            / (1000 * 60 * 60) < MIN_NOTIFICATION_INTERVAL_HOURS →
          (checkUserPnL now₂ s₂ (checkUserPnL now₁ s₁ st).2).1 = false) := by
  refine ⟨?_, ?_, ?_⟩
  · intro h
    simp [checkUserPnL, h]
  · intro h
    by_cases h0 : s₁.balanceUsd = 0
    · simp [checkUserPnL, h0] at h
    · by_cases hiv : ((now₁ : ℚ) - (st.lastNotificationTime : ℚ)) / (1000 * 60 * 60)
          < MIN_NOTIFICATION_INTERVAL_HOURS
      · simp [checkUserPnL, h0, hiv] at h
      · simp [checkUserPnL, h0, hiv]
  · set st' := (checkUserPnL now₁ s₁ st).2 with hst'
    intro h
    by_cases h0 : s₂.balanceUsd = 0
    · simp [checkUserPnL, h0]
    · simp [checkUserPnL, h0, h]

theorem notification_throttle_witness :
    checkUserPnL 1700000000000 ⟨0, 0, 0, 0, 0⟩ ⟨7, 9, 15, 41, 0⟩ =
        (false, ⟨7, 9, 15, 41, 0⟩)
      ∧ (checkUserPnL 1700000000000 ⟨100, 4000, 4200, 200, 42⟩ ⟨7, 9, 15, 41, 0⟩).1
          = true
      ∧ (checkUserPnL 1700000000000 ⟨100, 4000, 4200, 200, 42⟩ ⟨7, 9, 15, 41, 0⟩).2
          = ⟨7, 9, 200, 42, 1700000000000⟩
      ∧ (checkUserPnL 1700001000000 ⟨100, 4000, 4200, 200, 42⟩
            (checkUserPnL 1700000000000 ⟨100, 4000, 4200, 200, 42⟩
              ⟨7, 9, 15, 41, 0⟩).2).1 = false := by
  have hfirst : (checkUserPnL 1700000000000
      (⟨100, 4000, 4200, 200, 42⟩ : StatusResult)
      (⟨7, 9, 15, 41, 0⟩ : UserNotificationState)).1 = true := by
    norm_num [checkUserPnL, MIN_NOTIFICATION_INTERVAL_HOURS]
  have t1 := (notification_throttle 1700000000000 0 ⟨0, 0, 0, 0, 0⟩ ⟨0, 0, 0, 0, 0⟩
    ⟨7, 9, 15, 41, 0⟩).1 rfl
  obtain ⟨-, p2, p3⟩ := notification_throttle 1700000000000 1700001000000
    ⟨100, 4000, 4200, 200, 42⟩ ⟨100, 4000, 4200, 200, 42⟩ ⟨7, 9, 15, 41, 0⟩
  have hupd := p2 hfirst
  refine ⟨t1, hfirst, hupd, p3 ?_⟩
  rw [hupd]
  norm_num [MIN_NOTIFICATION_INTERVAL_HOURS]

theorem getNbuRate_dateOnly (env : RateEnv) (date : Time) :
    getNbuRate env (getDateOnly date) = getNbuRate env date := by
  unfold getNbuRate
  rw [getDateOnly_idem]

/-- `getNbuRate` neither reads nor (beyond the cache) writes anything
that depends on the Monobank endpoint. -/
theorem getNbuRate_monoApi (env : RateEnv) (m : Fetch (Option ℚ)) (date : Time) :
    (getNbuRate { env with monoApi := m } date).1 = (getNbuRate env date).1
      ∧ ((getNbuRate { env with monoApi := m } date).2).cache
          = ((getNbuRate env date).2).cache := by
  have hm : ∀ p c d, cacheFind { env with monoApi := m } p c d = cacheFind env p c d :=
    fun _ _ _ => rfl
  cases h : cacheFind env Provider.nbu "USD" (getDateOnly date) with
  | some r => constructor <;> simp [getNbuRate, hm, h]
  | none =>
    cases h2 : env.nbuApi (getDateOnly date) with
    | transportError => constructor <;> simp [getNbuRate, hm, h, h2]
    | ok v =>
      cases v with
      | none => constructor <;> simp [getNbuRate, hm, h, h2]
      | some rate => constructor <;> simp [getNbuRate, hm, h, h2, saveToCacheNbu]

/-- Claim C7: when the requested date is today, the Monobank cache has no
fresh entry, and the Monobank call fails with a transport error,
`getMonobankBuyRate` (the spec's `getDisposalRate`) falls back
silently to `getNbuRate` (the spec's `getAcquisitionRate`): it returns
exactly what `getNbuRate` returns for that date — value or `getNbuRate`
failure — and never surfaces the Monobank transport error. -/
theorem mono_transport_error_falls_back (env : RateEnv) (date : Time)
    (htoday : getDateOnly date = getDateOnly env.now)
    (hmiss : cacheFind env .monobank "USD" (getDateOnly date) = none)
    (hfail : env.monoApi = .transportError) :
    getMonobankBuyRate env date = getNbuRate env date := by
  have hne : ¬ (getDateOnly date ≠ getDateOnly env.now) := by simp [htoday]
  simp only [getMonobankBuyRate, if_neg hne, hmiss, hfail]
  exact getNbuRate_dateOnly env date

theorem mono_transport_error_falls_back_witness :
    getDateOnly 0 = getDateOnly exampleEnv.now
      ∧ cacheFind exampleEnv .monobank "USD" (getDateOnly 0) = none
      ∧ exampleEnv.monoApi = .transportError
      ∧ getMonobankBuyRate exampleEnv 0 = getNbuRate exampleEnv 0
      ∧ (getMonobankBuyRate exampleEnv 0).1 = .ok 40 := by
  refine ⟨rfl, rfl, rfl, mono_transport_error_falls_back exampleEnv 0 rfl rfl rfl, ?_⟩
  rw [mono_transport_error_falls_back exampleEnv 0 rfl rfl rfl]
  rfl

/-- Claim C8: for any calendar date other than today's,
`getMonobankBuyRate` delegates entirely to `getNbuRate` — the two
return the same result (value or failure) and the same state — and the
Monobank endpoint is never consulted: the returned value and the cache
afterwards do not depend on it at all. -/
theorem historical_date_delegates (env : RateEnv) (date : Time)
    (hne : getDateOnly date ≠ getDateOnly env.now) :
    getMonobankBuyRate env date = getNbuRate env date
      ∧ ∀ m, (getMonobankBuyRate { env with monoApi := m } date).1
              = (getMonobankBuyRate env date).1
          ∧ ((getMonobankBuyRate { env with monoApi := m } date).2).cache
              = ((getMonobankBuyRate env date).2).cache := by
  have h1 : getMonobankBuyRate env date = getNbuRate env date := by
    simp only [getMonobankBuyRate, if_pos hne]
    exact getNbuRate_dateOnly env date
  refine ⟨h1, fun m => ?_⟩
  have h2 : getMonobankBuyRate { env with monoApi := m } date
      = getNbuRate { env with monoApi := m } date := by
    simp only [getMonobankBuyRate, if_pos hne]
    exact getNbuRate_dateOnly _ date
  rw [h1, h2]
  exact getNbuRate_monoApi env m date

theorem historical_date_delegates_witness :
    getDateOnly (-86400000) ≠ getDateOnly exampleEnv.now
      ∧ getMonobankBuyRate exampleEnv (-86400000) = getNbuRate exampleEnv (-86400000)
      ∧ (getMonobankBuyRate { exampleEnv with monoApi := .ok (some 99) }
            (-86400000)).1
          = (getMonobankBuyRate exampleEnv (-86400000)).1 := by
  have hne : getDateOnly (-86400000 : Time) ≠ getDateOnly exampleEnv.now := by decide
  obtain ⟨h1, h2⟩ := historical_date_delegates exampleEnv (-86400000) hne
  exact ⟨hne, h1, (h2 (.ok (some 99))).1⟩

theorem applyUpdatesFallible_all_ok (incomes : List UsdIncome)
    (ups : List (UsdIncome × ℚ)) (k : Nat) :
    applyUpdatesFallible incomes ups (fun _ => true) k =
      (applyUpdates incomes ups, true) := by
  induction ups generalizing incomes k with
  | nil => simp [applyUpdatesFallible, applyUpdates]
  | cons u ups ih => simp [applyUpdatesFallible, applyUpdates, List.foldl_cons, ih]

/-- With the rate available and every save succeeding, the
effect-annotated model coincides with `sellUsd`. -/
theorem sellUsdFallible_all_ok (l : Ledger) (u : Int) (q : ℚ) (d : Time) (r : ℚ) :
    sellUsdFallible l u q d (.ok r) (fun _ => true) true = sellUsd l u q d r := by
  unfold sellUsdFallible sellUsd
  by_cases h : getBalance l u < q
  · simp [h]
  · simp [h, applyUpdatesFallible_all_ok]

/-- A rate-lookup failure before any mutation leaves the ledger
unchanged. -/
theorem sellUsdFallible_rate_error (l : Ledger) (u : Int) (q : ℚ) (d : Time)
    (saveOk : Nat → Bool) (saleSaveOk : Bool) :
    (sellUsdFallible l u q d .transportError saveOk saleSaveOk).1 = l := by
  unfold sellUsdFallible
  by_cases h : getBalance l u < q <;> simp [h]

/-- Claim C5: the atomicity the spec requires does not hold in the code —
when `sale.save()` rejects after the lot updates were already saved,
`sellUsd` reports failure while the database keeps the mutated lots
(100 → 50) with no disposal record appended: a lot's
`remainingQuantity` changed with no corresponding `DisposalRecord`. -/
theorem sale_save_failure_partial_state :
    (sellUsdFallible exampleLedger3 1 50 0 (.ok 42) (fun _ => true) false).2.success
        = false
      ∧ (sellUsdFallible exampleLedger3 1 50 0 (.ok 42) (fun _ => true) false).1.sales
          = []
      ∧ ((sellUsdFallible exampleLedger3 1 50 0 (.ok 42) (fun _ => true)
            false).1.incomes.map (·.remainingUsd)) = [50] := by
  refine ⟨?_, ?_, ?_⟩ <;>
    norm_num [sellUsdFallible, sellUsdCaughtError, getBalance, userLots,
      exampleLedger3, exampleLot3, fifoQueue, fifoConsume, List.mergeSort,
      fifoStep, applyUpdatesFallible, decrementLot, min_def, List.filter]

/-- Claim C6, counterexample: called with a non-positive quantity,
`UsdService.sellUsd` itself does not reject the request: on an empty
ledger a disposal of −5 passes the balance check (`0 < −5` is false),
uses the provider's rate (here 40, yielding `sellUah = −200`), and
appends a degenerate sale record to the ledger. -/
theorem sellUsd_nonpositive_not_rejected :
    (sellUsd Ledger.empty 1 (-5) 0 40).2.success = true
      ∧ (sellUsd Ledger.empty 1 (-5) 0 40).1.sales.length = 1
      ∧ (sellUsd Ledger.empty 1 (-5) 0 40).2.sellUah = -200 := by
  refine ⟨?_, ?_, ?_⟩ <;>
    norm_num [sellUsd, getBalance, userLots, Ledger.empty, fifoQueue, fifoConsume,
      applyUpdates, List.mergeSort, List.filter]

/-- Claim C6, amended: in the program the non-positive-quantity
rejection lives in the transport shell: `BotHandlers.handleSellUsd`
rejects any amount ≤ 0 before `UsdService.sellUsd` runs, so no lot is
read or mutated, no sale record is appended, and the outcome is the
same whatever the rate provider would have answered. -/
theorem handler_rejects_nonpositive (l : Ledger) (u : Int) (q : ℚ) (d : Time)
    (hq : q ≤ 0) :
    ∀ r, handleSellUsd l u q d r = (l, .invalidAmount) := by
  intro r
  simp [handleSellUsd, hq]

theorem handler_rejects_nonpositive_witness :
    ((-5 : ℚ) ≤ 0)
      ∧ handleSellUsd exampleLedger 1 (-5) 0 40 = (exampleLedger, .invalidAmount)
      ∧ handleSellUsd exampleLedger 1 (-5) 0 99 = (exampleLedger, .invalidAmount) :=
  ⟨by norm_num,
   handler_rejects_nonpositive exampleLedger 1 (-5) 0 (by norm_num) 40,
   handler_rejects_nonpositive exampleLedger 1 (-5) 0 (by norm_num) 99⟩

/-- Claim C3: over any finite sequence of acquisitions and disposals with
positive quantities, starting from the empty ledger, every owner's
current balance — the sum of `remainingUsd` over their lots — equals
the total quantity acquired minus the total quantity successfully
disposed (the quantities of the appended sale records; a rejected
disposal appends nothing and changes nothing), and no disposal ever
drives a balance negative. -/
theorem balance_conservation (ops : List LedgerOp)
    (hq : ∀ op ∈ ops, 0 < op.quantity) (u : Int) :
    getBalance (runOps Ledger.empty ops) u
        = acquiredSum (runOps Ledger.empty ops) u
          - disposedSum (runOps Ledger.empty ops) u
      ∧ 0 ≤ getBalance (runOps Ledger.empty ops) u := by
  obtain ⟨hWF, hC⟩ := runOps_invariant ⟨WF_empty, Conserved_empty⟩ hq
  have hbal := getBalance_eq_totalRemaining (l := runOps Ledger.empty ops) (u := u)
    hWF.2
  constructor
  · rw [hbal]
    exact hC u
  · rw [hbal]
    exact totalRemaining_nonneg hWF.2 u

theorem balance_conservation_witness :
    (∀ op ∈ [LedgerOp.acquire 1 50 40 1767225600000,
             LedgerOp.acquire 1 100 41 1768435200000,
             LedgerOp.dispose 1 75 1768867200000 42], 0 < op.quantity)
      ∧ (getBalance (runOps Ledger.empty
            [LedgerOp.acquire 1 50 40 1767225600000,
             LedgerOp.acquire 1 100 41 1768435200000,
             LedgerOp.dispose 1 75 1768867200000 42]) 1
          = acquiredSum (runOps Ledger.empty
              [LedgerOp.acquire 1 50 40 1767225600000,
               LedgerOp.acquire 1 100 41 1768435200000,
               LedgerOp.dispose 1 75 1768867200000 42]) 1
            - disposedSum (runOps Ledger.empty
                [LedgerOp.acquire 1 50 40 1767225600000,
                 LedgerOp.acquire 1 100 41 1768435200000,
                 LedgerOp.dispose 1 75 1768867200000 42]) 1) := by
  have hq : ∀ op ∈ [LedgerOp.acquire 1 50 40 1767225600000,
      LedgerOp.acquire 1 100 41 1768435200000,
      LedgerOp.dispose 1 75 1768867200000 42], 0 < op.quantity := by
    intro op hop
    simp only [List.mem_cons, List.not_mem_nil, or_false] at hop
    rcases hop with rfl | rfl | rfl <;> norm_num [LedgerOp.quantity]
  exact ⟨hq, (balance_conservation _ hq 1).1⟩

/-- Claim C2: on a successful disposal each consumed lot contributes
`consumedAmount / originalQuantity × costBasis` — computed as the
division-then-multiplication `(soldAmount / amountUsd) * taxBaseUah`,
not as `soldAmount * nbuRate` — to the consumed cost basis
(`taxBaseUah` of the result), and the realized profit equals
`quantity × disposalRate − costBasisConsumed`; in particular a lot of
original 100 at rate 40.0 (cost basis 4000) partially consumed for 25
contributes `25/100 × 4000 = 1000`. -/
theorem proportional_cost_basis (l : Ledger) (u : Int) (q : ℚ) (d : Time) (r : ℚ)
    (hbal : ¬ getBalance l u < q) :
    ((sellUsd l u q d r).2.success = true
      ∧ (sellUsd l u q d r).2.taxBaseUah
          = ((fifoConsume (fifoQueue l u) q).updatedIncomes.map
              fun p => p.2 / p.1.amountUsd * p.1.taxBaseUah).sum
      ∧ (sellUsd l u q d r).2.profit = q * r - (sellUsd l u q d r).2.taxBaseUah)
      ∧ taxBaseContribution exampleLot3 25 = 1000 := by
  refine ⟨⟨?_, ?_, ?_⟩, ?_⟩
  · simp [sellUsd, hbal]
  · simp [sellUsd, hbal, fifoConsume_spec, taxSum, taxBaseContribution]
  · simp [sellUsd, hbal]
  · norm_num [taxBaseContribution, exampleLot3]

theorem proportional_cost_basis_witness :
    (¬ getBalance exampleLedger3 1 < 25)
      ∧ (sellUsd exampleLedger3 1 25 0 50).2.success = true
      ∧ (sellUsd exampleLedger3 1 25 0 50).2.profit
          = 25 * 50 - (sellUsd exampleLedger3 1 25 0 50).2.taxBaseUah := by
  have hbal : ¬ getBalance exampleLedger3 1 < 25 := by
    norm_num [getBalance, userLots, exampleLedger3, exampleLot3, List.filter]
  obtain ⟨⟨h1, -, h3⟩, -⟩ := proportional_cost_basis exampleLedger3 1 25 0 50 hbal
  exact ⟨hbal, h1, h3⟩

theorem fifoQueue_sorted (l : Ledger) (u : Int) :
    List.Pairwise (fun a b : UsdIncome => a.date ≤ b.date) (fifoQueue l u) := by
  have htrans : ∀ a b c : UsdIncome,
      byDateLe a b = true → byDateLe b c = true → byDateLe a c = true := by
    intro a b c hab hbc
    simp only [byDateLe, decide_eq_true_eq] at hab hbc ⊢
    exact le_trans hab hbc
  have htotal : ∀ a b : UsdIncome, (byDateLe a b || byDateLe b a) = true := by
    intro a b
    simp only [byDateLe, Bool.or_eq_true, decide_eq_true_eq]
    exact Int.le_total _ _
  have h := List.sorted_mergeSort htrans htotal (userLots l u)
  exact h.imp fun hab => by simpa [byDateLe] using hab

/-- Claim C1: on a disposal of a positive quantity not exceeding the
owner's balance, the deduction loop visits exactly the owner's lots
with positive remaining quantity, in ascending acquisition-date
order — its recorded updates are precisely the spec's oldest-first
walk `specFifoWalk`, which takes `min(remainingQuantity, stillNeeded)`
from each lot and stops once the quantity is allocated — the
consumed amounts sum to the requested quantity, and the ledger
afterwards has each lot's `remainingUsd` decremented by exactly the
amount consumed from it (all other lots untouched); for the spec's
example (lots of 50 dated 2026-01-01 and 100 dated 2026-01-15,
disposing 75) the remaining quantities afterwards are 0 and 75. -/
theorem fifo_disposal (l : Ledger) (u : Int) (q : ℚ) (d : Time) (r : ℚ)
    (hids : l.incomes.map (·.id) = List.range l.incomes.length)
    (hq : 0 ≤ q) (hbal : ¬ getBalance l u < q) :
    ((fifoConsume (fifoQueue l u) q).updatedIncomes = specFifoWalk (fifoQueue l u) q
      ∧ List.Pairwise (fun a b : UsdIncome => a.date ≤ b.date)
          (((fifoConsume (fifoQueue l u) q).updatedIncomes).map Prod.fst)
      ∧ (∀ p ∈ (fifoConsume (fifoQueue l u) q).updatedIncomes,
          0 < p.1.remainingUsd ∧ p.1.userId = u ∧ p.2 ≤ p.1.remainingUsd)
      ∧ consumedSum ((fifoConsume (fifoQueue l u) q).updatedIncomes) = q
      ∧ ((sellUsd l u q d r).1.incomes
          = l.incomes.map fun i =>
              { i with remainingUsd :=
                  i.remainingUsd
                    - soldFor ((fifoConsume (fifoQueue l u) q).updatedIncomes) i.id })
      ∧ ∀ p ∈ (fifoConsume (fifoQueue l u) q).updatedIncomes,
          soldFor ((fifoConsume (fifoQueue l u) q).updatedIncomes) p.1.id = p.2)
      ∧ (sellUsd exampleLedger 1 75 0 42).1.incomes.map (·.remainingUsd) = [0, 75] := by
  have hupd : (fifoConsume (fifoQueue l u) q).updatedIncomes
      = specFifoWalk (fifoQueue l u) q := by
    rw [fifoConsume_spec]
  have hnd : (l.incomes.map (·.id)).Nodup := by
    rw [hids]
    exact List.nodup_range _
  refine ⟨⟨hupd, ?_, ?_, ?_, ?_, ?_⟩, ?_⟩
  · rw [hupd]
    exact List.Pairwise.sublist (specFifoWalk_front (fifoQueue l u) q).sublist
      (fifoQueue_sorted l u)
  · rw [hupd]
    intro p hp
    obtain ⟨hpq, hple⟩ := specFifoWalk_mem hp
    obtain ⟨-, hpu, hppos⟩ := mem_fifoQueue hpq
    exact ⟨hppos, hpu, hple⟩
  · rw [hupd]
    exact consumedSum_walk_of_success hq hbal
  · rw [hupd]
    exact sellUsd_incomes_of_success hbal
  · rw [hupd]
    intro p hp
    obtain ⟨p1, p2⟩ := p
    exact soldFor_of_nodup (nodup_walk_ids hnd q) hp
  · norm_num [sellUsd, getBalance, userLots, exampleLedger, exampleLot1,
      exampleLot2, fifoQueue, List.mergeSort, byDateLe, fifoConsume, fifoStep,
      applyUpdates, decrementLot, min_def, taxBaseContribution, List.filter]

theorem fifo_disposal_witness :
    (exampleLedger.incomes.map (·.id) = List.range exampleLedger.incomes.length)
      ∧ ((0 : ℚ) ≤ 75)
      ∧ (¬ getBalance exampleLedger 1 < 75)
      ∧ consumedSum ((fifoConsume (fifoQueue exampleLedger 1) 75).updatedIncomes) = 75
      ∧ (sellUsd exampleLedger 1 75 0 42).1.incomes.map (·.remainingUsd) = [0, 75] := by
  have hids : exampleLedger.incomes.map (·.id)
      = List.range exampleLedger.incomes.length := by
    simp [exampleLedger, exampleLot1, exampleLot2, List.range_succ]
  have hq : (0 : ℚ) ≤ 75 := by norm_num
  have hbal : ¬ getBalance exampleLedger 1 < 75 := by
    norm_num [getBalance, userLots, exampleLedger, exampleLot1, exampleLot2,
      List.filter]
  obtain ⟨⟨-, -, -, h4, -, -⟩, h7⟩ := fifo_disposal exampleLedger 1 75 0 42 hids hq hbal
  exact ⟨hids, hq, hbal, h4, h7⟩

end FopDollarBot
